import Mathlib

set_option maxRecDepth 8192

/-!
Verification of the algorithmic core of `src/util.js` (uva-node): the
quoted-argument tokenizer (`parseArgs`, `skipWhitespace`, `unquote`) and the
streaming multipart/form-data encoder (`writeFormData`). Strings are embedded
as `List Char`, byte buffers as `List Nat`, and the encoder's sink as a trace
of events; each definition mirrors the JavaScript source line by line.
-/

namespace UvaNode

/-- The double-quote character `"` (code 34). -/
def dqChar : Char := Char.ofNat 34

/-- The single-quote character (code 39). -/
def sqChar : Char := Char.ofNat 39

/-- The two quote characters the source recognizes, `"` and the single quote
(src/util.js lines 104-106 and 356). -/
def isQuoteChar (c : Char) : Bool := c = dqChar || c = sqChar

/-- The tokenizer's separator whitespace: space and tab only (src/util.js
`skipWhitespace` line 318 and `parseArgs` line 369). -/
def isWsChar (c : Char) : Bool := c = ' ' || c = '\t'

/-- The whitespace class of JavaScript `String.prototype.trim`, restricted to
its ASCII part (space, tab, LF, VT, FF, CR); the source applies `.trim()` to
tokens and to `unquote`'s argument. Note this class is strictly larger than
the tokenizer's separator class `isWsChar`. -/
def isTrimWs (c : Char) : Bool :=
  c = ' ' || c = '\t' || c = Char.ofNat 10 || c = Char.ofNat 11 ||
  c = Char.ofNat 12 || c = Char.ofNat 13

/-- JavaScript `String.prototype.trim`: drop `isTrimWs` characters from both
ends of the string. -/
def jsTrim (s : List Char) : List Char :=
  ((s.dropWhile isTrimWs).reverse.dropWhile isTrimWs).reverse

/-- The object `{message: "mismatched quote chars"}` thrown by `unquote`
(src/util.js line 113). -/
inductive MismatchedQuote
  | mk
  deriving DecidableEq

/-- The error `errors.UnmatchedQuote` thrown by `parseArgs` (src/util.js line
385; the class itself lives in `errors.js`, outside `src/`, and only its
identity matters here). -/
inductive UnmatchedQuote
  | mk
  deriving DecidableEq

instance {ε α : Type} [DecidableEq ε] [DecidableEq α] : DecidableEq (Except ε α) := fun x y =>
  match x, y with
  | .ok a, .ok b =>
    if h : a = b then isTrue (by rw [h]) else isFalse (by intro hc; cases hc; exact h rfl)
  | .error a, .error b =>
    if h : a = b then isTrue (by rw [h]) else isFalse (by intro hc; cases hc; exact h rfl)
  | .ok _, .error _ => isFalse (by intro hc; cases hc)
  | .error _, .ok _ => isFalse (by intro hc; cases hc)

/-- `unquote` from src/util.js lines 98-118. The source's
`var end = s.length >= 2 ? s.charAt(s.length-1) : 0` sets `end` to the number
zero when the trimmed string has a single character; under `===` that number
equals no character, which `Option Char` renders as `none`. -/
def unquote (s0 : List Char) : Except MismatchedQuote (List Char) :=
  match jsTrim s0 with
  | [] => .ok []
  | start :: rest =>
    let e : Option Char :=
      if 2 ≤ (start :: rest).length then (start :: rest).getLast? else none
    let isQuote := isQuoteChar start ||
      (match e with | some c => isQuoteChar c | none => false)
    if isQuote then
      if e = some start then .ok (((start :: rest).drop 1).dropLast)
      else .error .mk
    else .ok (start :: rest)

/-- `skipWhitespace` from src/util.js lines 312-323: the suffix of `s` that
starts at the first non-separator character; `none` models the source's `-1`
return when only separator whitespace remains. -/
def skipWhitespace (s : List Char) : Option (List Char) :=
  match s.dropWhile isWsChar with
  | [] => none
  | r => some r

/-- The `for` loop of `parseArgs` (src/util.js lines 333-382) together with
the code after it (lines 384-390). `input` is the suffix of the original
string from the loop index `i`; `fuel` renders the loop bound `i < s.length`:
every iteration advances `i` by at least one, so the remaining input's
length, which `parseArgs` supplies, is enough fuel, and the `fuel = 0` arm
with input left is unreachable. -/
def parseArgsLoop : Nat → Option Char → List (List Char) → List Char →
    List Char → Except UnmatchedQuote (List (List Char))
  | _, some _, _, _, [] => .error .mk
  | _, none, args, curToken, [] =>
    if curToken ≠ [] then .ok (args ++ [jsTrim curToken]) else .ok args
  | 0, _, _, _, _ :: _ => .error .mk
  | fuel + 1, some q, args, curToken, c :: rest =>
    if c = q then
      match skipWhitespace rest with
      | none => .ok (args ++ [jsTrim curToken])
      | some r => parseArgsLoop fuel none (args ++ [jsTrim curToken]) [] r
    else
      parseArgsLoop fuel (some q) args (curToken ++ [c]) rest
  | fuel + 1, none, args, curToken, c :: rest =>
    if isQuoteChar c then
      parseArgsLoop fuel (some c)
        (if jsTrim curToken ≠ [] then args ++ [jsTrim curToken] else args)
        [] rest
    else if isWsChar c then
      match skipWhitespace rest with
      | none => .ok (args ++ [jsTrim curToken])
      | some r => parseArgsLoop fuel none (args ++ [jsTrim curToken]) [] r
    else
      parseArgsLoop fuel none args (curToken ++ [c]) rest

/-- The loop run with its canonical fuel, the remaining input's length. -/
def parseArgsFrom (startQuote : Option Char) (args : List (List Char))
    (curToken : List Char) (input : List Char) :
    Except UnmatchedQuote (List (List Char)) :=
  parseArgsLoop input.length startQuote args curToken input

/-- `parseArgs` from src/util.js lines 325-391: skip leading separators
(line 330, returning `[]` when nothing remains) and run the loop. -/
def parseArgs (s : List Char) : Except UnmatchedQuote (List (List Char)) :=
  match skipWhitespace s with
  | none => .ok []
  | some r => parseArgsFrom none [] [] r

/-- Modelled from the spec (§4.1): "fails with UnmatchedQuoteError if a quote
is opened but never closed", that is, the input ends while the scan is inside
an open quote. This is a bare quote-state scan, independent of the
tokenizer's token building. -/
def quoteOpenedNeverClosed (state : Option Char) : List Char → Bool
  | [] => state.isSome
  | c :: rest =>
    match state with
    | some q => quoteOpenedNeverClosed (if c = q then none else some q) rest
    | none => quoteOpenedNeverClosed (if isQuoteChar c then some c else none) rest

/-- The exception raised by a failing modelled `fs.readSync`. -/
inductive ReadError
  | mk
  deriving DecidableEq

/-- A file as the encoder sees it: its byte content, and the offset (if any)
at or beyond which `fs.readSync` raises instead of returning bytes; `none`
is a file whose reads all succeed. -/
structure FileModel where
  content : List Nat
  failAt : Option Nat
  deriving DecidableEq

/-- Models `fs.readSync(fd, buf, bufSize, bufCap-bufSize, null)` (src/util.js
line 235) on the file `fm` at file position `pos`: up to `len` of the
remaining bytes, or an exception when the file model fails at or before this
position. -/
def readSync (fm : FileModel) (pos len : Nat) : Except ReadError (List Nat) :=
  match fm.failAt with
  | some f => if f ≤ pos then .error .mk else .ok ((fm.content.drop pos).take len)
  | none => .ok ((fm.content.drop pos).take len)

/-- The events the encoder sends to its collaborators: bytes written to the
request (`write`), the final `httpReq.end` bytes (`wend`), which also
finalizes the sink, and the file-descriptor lifecycle (`fopen`/`fclose`). -/
inductive SinkEv
  | write (bytes : List Nat)
  | wend (bytes : List Nat)
  | fopen
  | fclose
  deriving DecidableEq

/-- `var bufCap = 1<<16` (src/util.js line 211): the fixed buffer capacity. -/
def bufCap : Nat := 1 <<< 16

/-- The inner read loop of `writeFormData` (src/util.js lines 233-238): read
until the buffer is full or a read returns zero bytes. `buf` is the filled
prefix of the fixed buffer (its length is the source's `bufSize`), `pos` the
current file position. `fuel` bounds the iterations: every continuing
iteration reads at least one byte, so `fm.content.length + 1` is always
enough, and the `fuel = 0` arm is unreachable from `streamLoop`. -/
def fillBuf (fm : FileModel) (cap : Nat) : Nat → Nat → List Nat →
    Except ReadError (Nat × List Nat)
  | 0, pos, buf => .ok (pos, buf)
  | fuel + 1, pos, buf =>
    if buf.length < cap then
      match readSync fm pos (cap - buf.length) with
      | .error e => .error e
      | .ok chunk =>
        if chunk.length = 0 then .ok (pos, buf)
        else fillBuf fm cap fuel (pos + chunk.length) (buf ++ chunk)
    else .ok (pos, buf)

/-- The outer `while(true)` streaming loop (src/util.js lines 230-249): the
chunks written to the sink, in order — the full buffer each time it fills
(with the fill counter reset to zero), then the valid prefix of the final
partial buffer — paired with the exception if a read failed (the bytes of a
partly filled buffer at that moment are never written, as in the source, but
full buffers already written stay written). `fuel` bounds the iterations:
each continuing iteration consumes `cap` bytes of the file, so
`fm.content.length + 1`, which `writeField` supplies, is enough whenever
`0 < cap`, and the `fuel = 0` arm is unreachable. -/
def streamLoop (fm : FileModel) (cap : Nat) : Nat → Nat →
    List (List Nat) × Option ReadError
  | 0, pos =>
    match fillBuf fm cap (fm.content.length + 1) pos [] with
    | .error _ => ([], some .mk)
    | .ok (_, buf) => ([buf], none)
  | fuel + 1, pos =>
    match fillBuf fm cap (fm.content.length + 1) pos [] with
    | .error _ => ([], some .mk)
    | .ok (pos2, buf) =>
      if buf.length = cap then
        let next := streamLoop fm cap fuel pos2
        (buf :: next.1, next.2)
      else ([buf], none)

/-- A field's value: the duck-typed distinction of src/util.js line 220 — an
object carrying a `filePath` is a file upload, anything else is rendered via
its string form. -/
inductive FieldVal
  | scalar (v : List Char)
  | file (filePath : List Char) (fm : FileModel)
  deriving DecidableEq

/-- The bytes of a string write, char codes standing for bytes (faithful on
the ASCII strings the claims use). -/
def strBytes (s : List Char) : List Nat := s.map Char.toNat

/-- The CRLF line ending. -/
def crlf : List Char := ("\r\n").data

/-- The header block written for a file field (src/util.js lines 222-225). -/
def fileHeader (key filePath : List Char) : List Char :=
  ("\r\nContent-Disposition: form-data; name=\"").data ++ key ++
  ("\"; filename=\"").data ++ filePath ++ ("\"\r\n").data ++
  ("Content-Type: application/octet-stream\r\n").data ++
  ("Content-Transfer-Encoding: binary\r\n\r\n").data

/-- The header block written for a scalar field (src/util.js line 256). -/
def scalarHeader (key : List Char) : List Char :=
  ("\r\nContent-Disposition: form-data; name=\"").data ++ key ++ ("\"\r\n\r\n").data

/-- The final terminator `--<boundary>--\r\n` (src/util.js line 261). -/
def terminatorBytes (boundStr : List Char) : List Nat :=
  strBytes (("--").data ++ boundStr ++ ("--\r\n").data)

/-- One iteration of the `for (var key in data)` loop of `writeFormData`
(src/util.js lines 214-259): the events sent for one field, and the
exception if a file read failed. The source has no try/finally, so when
`fs.readSync` throws, `fs.closeSync(fd)` on line 251 is skipped and the
exception propagates with the descriptor still open; the model renders that
exactly. -/
def writeField (boundStr : List Char) (key : List Char) (val : FieldVal) :
    List SinkEv × Option ReadError :=
  match val with
  | .file filePath fm =>
    let lead := [SinkEv.write (strBytes (("--").data ++ boundStr)),
                 SinkEv.write (strBytes (fileHeader key filePath)),
                 SinkEv.fopen]
    match streamLoop fm bufCap (fm.content.length + 1) 0 with
    | (chunks, some e) => (lead ++ chunks.map SinkEv.write, some e)
    | (chunks, none) =>
      (lead ++ chunks.map SinkEv.write ++
        [SinkEv.fclose, SinkEv.write (strBytes crlf)], none)
  | .scalar v =>
    ([SinkEv.write (strBytes (("--").data ++ boundStr)),
      SinkEv.write (strBytes (scalarHeader key)),
      SinkEv.write (strBytes (v ++ crlf))], none)

/-- `writeFormData` from src/util.js lines 204-262, as the trace of events
sent to the request object, paired with the propagated exception if any.
The boundary string is a parameter (the source draws it once per call from
`crypto.pseudoRandomBytes(16)`); the `Content-Type` request header set on
lines 208-209 travels outside the byte stream and is not part of the
trace. -/
def writeFormData (boundStr : List Char) :
    List (List Char × FieldVal) → List SinkEv × Option ReadError
  | [] => ([SinkEv.wend (terminatorBytes boundStr)], none)
  | (key, val) :: rest =>
    match writeField boundStr key val with
    | (evs, some e) => (evs, some e)
    | (evs, none) =>
      let next := writeFormData boundStr rest
      (evs ++ next.1, next.2)

/-- The bytes a trace of sink events delivers, in order (descriptor events
carry none). -/
def sinkBytes (evs : List SinkEv) : List Nat :=
  (evs.map (fun e => match e with
    | .write bs => bs
    | .wend bs => bs
    | .fopen => []
    | .fclose => [])).flatten

/-- Modelled from the spec (§4.3 per-field framing): the bytes one field
contributes — boundary line, headers, then the value bytes (for a file,
exactly its content), then CRLF. -/
def specPartBytes (boundStr : List Char) (key : List Char) (val : FieldVal) :
    List Nat :=
  match val with
  | .scalar v => strBytes (("--").data ++ boundStr) ++
      strBytes (scalarHeader key) ++ strBytes (v ++ crlf)
  | .file filePath fm => strBytes (("--").data ++ boundStr) ++
      strBytes (fileHeader key filePath) ++ fm.content ++ strBytes crlf

/-- Modelled from the spec (§4.3, §8): the whole encoded stream — every
field's part in order, then the terminator, with a file part carrying
exactly its file's bytes. -/
def specFormData (boundStr : List Char) (data : List (List Char × FieldVal)) :
    List Nat :=
  (data.map (fun kv => specPartBytes boundStr kv.1 kv.2)).flatten ++
    terminatorBytes boundStr

/-- True when every file field's reads succeed (its file model has no
failure point). -/
def fieldOk : List Char × FieldVal → Bool
  | (_, .file _ fm) => fm.failAt.isNone
  | (_, .scalar _) => true

/-- Recognizes the finalizing `wend` event. -/
def isWendEv : SinkEv → Bool
  | .wend _ => true
  | _ => false

/-- Modelled from the spec (§4.2): the trimmed string "looks quoted" on the
left — its first character is a quote char. -/
def leftQuoted (t : List Char) : Bool :=
  match t.head? with
  | some c => isQuoteChar c
  | none => false

/-- Modelled from the spec (§4.2): the trimmed string "looks quoted" on the
right — it has length at least 2 and its last character is a quote char. -/
def rightQuoted (t : List Char) : Bool :=
  decide (2 ≤ t.length) &&
    (match t.getLast? with
     | some c => isQuoteChar c
     | none => false)

/-- Modelled from the spec (§4.1, §8): the quote character used to re-quote
one token when re-joining — any quote char not occurring in the token (a
token never contains both; the single quote is preferred). -/
def requoteChar (t : List Char) : Char :=
  if sqChar ∈ t then dqChar else sqChar

/-- Modelled from the spec (§8): one token, individually re-quoted. -/
def requote (t : List Char) : List Char :=
  requoteChar t :: t ++ [requoteChar t]

/-- Modelled from the spec (§8): the tokens re-joined with separator spaces,
each token individually re-quoted. -/
def rejoinQuoted : List (List Char) → List Char
  | [] => []
  | [t] => requote t
  | t :: rest => requote t ++ ' ' :: rejoinQuoted rest

-- sanity checks: the encoder model on small concrete inputs
example : sinkBytes (writeFormData (("b").data)
    [(("f").data, .file (("x.bin").data) ⟨[1, 2, 3], none⟩)]).1 =
    specFormData (("b").data) [(("f").data, .file (("x.bin").data) ⟨[1, 2, 3], none⟩)] := by
  decide
example : (writeFormData (("b").data)
    [(("f").data, .file (("x.bin").data) ⟨[1, 2, 3], some 0⟩)]).2 = some .mk := by decide
example : SinkEv.fclose ∉ (writeFormData (("b").data)
    [(("f").data, .file (("x.bin").data) ⟨[1, 2, 3], some 0⟩)]).1 := by decide
example : (writeFormData (("b").data) []).1 = [.wend (terminatorBytes (("b").data))] := by
  decide
example : sinkBytes (writeFormData (("b").data)
    [(("a").data, .scalar (("1").data)),
     (("f").data, .file (("x").data) ⟨[7], none⟩)]).1 =
    specFormData (("b").data)
    [(("a").data, .scalar (("1").data)), (("f").data, .file (("x").data) ⟨[7], none⟩)] := by
  decide

-- sanity checks: the source's own comment-block test cases (src/util.js lines 393-434)
example : parseArgs [] = .ok [] := by decide
example : parseArgs ((" ").data) = .ok [] := by decide
example : parseArgs (("  a  ").data) = .ok [("a").data] := by decide
example : parseArgs (("'hello'abc").data) = .ok [("hello").data, ("abc").data] := by decide
example : parseArgs (("'hello' \"\" 'hello there'").data) =
    .ok [("hello").data, [], ("hello there").data] := by decide
example : parseArgs (("'hello'\"\"'hello there'").data) =
    .ok [("hello").data, [], ("hello there").data] := by decide
example : parseArgs (("  'hello world'  ").data) = .ok [("hello world").data] := by decide
example : parseArgs (("'unterminated").data) = .error .mk := by decide
example : parseArgs (("\n").data) = .ok [[]] := by decide
example : parseArgs (("'  '").data) = .ok [[]] := by decide
example : unquote (("  'hello'  ").data) = .ok (("hello").data) := by decide
example : unquote (("hello").data) = .ok (("hello").data) := by decide
example : unquote (("'").data) = .error .mk := by decide
example : unquote (("  ' hello '  ").data) = .ok ((" hello ").data) := by decide
example : unquote (("'hello").data) = .error .mk := by decide
example : quoteOpenedNeverClosed none (("'unterminated").data) = true := by decide
example : quoteOpenedNeverClosed none (("'hello'abc").data) = false := by decide

/-! ### Character classes, `jsTrim` and `skipWhitespace` -/

theorem isTrimWs_of_isWsChar {c : Char} (h : isWsChar c = true) : isTrimWs c = true := by
  simp only [isWsChar, Bool.or_eq_true, decide_eq_true_eq] at h
  rcases h with h | h <;> subst h <;> decide

theorem not_isQuoteChar_of_isWsChar {c : Char} (h : isWsChar c = true) :
    isQuoteChar c = false := by
  simp only [isWsChar, Bool.or_eq_true, decide_eq_true_eq] at h
  rcases h with h | h <;> subst h <;> decide

theorem head?_dropWhile_eq_some {α} (p : α → Bool) :
    ∀ (l : List α) (c : α), (l.dropWhile p).head? = some c → p c = false := by
  intro l
  induction l with
  | nil => intro c h; simp at h
  | cons a t ih =>
    intro c h
    rw [List.dropWhile_cons] at h
    by_cases hp : p a = true
    · rw [if_pos hp] at h
      exact ih c h
    · rw [if_neg hp] at h
      cases h
      simpa using hp

theorem dropWhile_eq_self_of_head? {α} (p : α → Bool) (l : List α)
    (h : ∀ c, l.head? = some c → p c = false) : l.dropWhile p = l := by
  cases l with
  | nil => rfl
  | cons a t => simp [List.dropWhile_cons, h a rfl]

theorem jsTrim_sublist (l : List Char) : List.Sublist (jsTrim l) l := by
  unfold jsTrim
  have h1 : List.Sublist ((l.dropWhile isTrimWs).reverse.dropWhile isTrimWs)
      (l.dropWhile isTrimWs).reverse := (List.dropWhile_suffix _).sublist
  have h2 := h1.reverse
  rw [List.reverse_reverse] at h2
  exact h2.trans (List.dropWhile_suffix _).sublist

theorem mem_of_mem_jsTrim {c : Char} {l : List Char} (h : c ∈ jsTrim l) : c ∈ l :=
  (jsTrim_sublist l).subset h

theorem jsTrim_eq_self_of_ends (l : List Char)
    (hh : ∀ c, l.head? = some c → isTrimWs c = false)
    (hl : ∀ c, l.getLast? = some c → isTrimWs c = false) : jsTrim l = l := by
  unfold jsTrim
  rw [dropWhile_eq_self_of_head? _ _ hh]
  rw [dropWhile_eq_self_of_head? _ _ (fun c hc => hl c (by
    rwa [List.head?_reverse] at hc)), List.reverse_reverse]

theorem jsTrim_eq_self_of_forall (l : List Char)
    (h : ∀ c ∈ l, isTrimWs c = false) : jsTrim l = l :=
  jsTrim_eq_self_of_ends l
    (fun c hc => h c (List.mem_of_mem_head? (by rw [hc]; rfl)))
    (fun c hc => h c (by
      obtain ⟨hne, hc2⟩ := List.mem_getLast?_eq_getLast (show c ∈ l.getLast? by
        rw [hc]; rfl)
      rw [hc2]
      exact List.getLast_mem hne))

theorem getLast?_of_suffix {α} {s t : List α} (h : s <:+ t) {c : α}
    (hc : s.getLast? = some c) : t.getLast? = some c := by
  obtain ⟨pre, hp⟩ := h
  rw [← hp, List.getLast?_append, hc]
  simp

theorem jsTrim_idem (l : List Char) : jsTrim (jsTrim l) = jsTrim l := by
  apply jsTrim_eq_self_of_ends
  · intro c hc
    rw [jsTrim, List.head?_reverse] at hc
    have h2 := getLast?_of_suffix (List.dropWhile_suffix isTrimWs) hc
    rw [List.getLast?_reverse] at h2
    exact head?_dropWhile_eq_some _ _ _ h2
  · intro c hc
    rw [jsTrim, List.getLast?_reverse] at hc
    exact head?_dropWhile_eq_some _ _ _ hc

theorem skipWhitespace_eq_none_iff (s : List Char) :
    skipWhitespace s = none ↔ ∀ c ∈ s, isWsChar c = true := by
  rcases h : s.dropWhile isWsChar with _ | ⟨a, t⟩
  · simp only [skipWhitespace, h]
    simpa using List.dropWhile_eq_nil_iff.mp h
  · simp only [skipWhitespace, h]
    constructor
    · intro hc; cases hc
    · intro hall
      have h2 : s.dropWhile isWsChar = [] := List.dropWhile_eq_nil_iff.mpr hall
      rw [h] at h2
      cases h2

theorem skipWhitespace_eq_some {s r : List Char} (h : skipWhitespace s = some r) :
    r = s.dropWhile isWsChar := by
  rcases hd : s.dropWhile isWsChar with _ | ⟨a, t⟩ <;>
    simp only [skipWhitespace, hd] at h
  · cases h
  · cases h; rfl

theorem skipWhitespace_length_le {s r : List Char} (h : skipWhitespace s = some r) :
    r.length ≤ s.length := by
  rw [skipWhitespace_eq_some h]
  exact (List.dropWhile_suffix _).sublist.length_le

theorem skipWhitespace_cons_not_ws {c : Char} {l : List Char}
    (h : isWsChar c = false) : skipWhitespace (c :: l) = some (c :: l) := by
  have h2 : (c :: l).dropWhile isWsChar = c :: l := by
    simp [List.dropWhile_cons, h]
  simp only [skipWhitespace, h2]

theorem skipWhitespace_decomp {s r : List Char} (h : skipWhitespace s = some r) :
    ∃ pre, s = pre ++ r ∧ ∀ c ∈ pre, isWsChar c = true := by
  refine ⟨s.takeWhile isWsChar, ?_, ?_⟩
  · rw [skipWhitespace_eq_some h]
    exact (List.takeWhile_append_dropWhile isWsChar s).symm
  · intro c hc
    exact List.mem_takeWhile_imp hc

/-! ### The tokenizer loop: fuel adequacy and step equations -/

theorem parseArgsLoop_adequate :
    ∀ (fuel : Nat) (sq : Option Char) (args : List (List Char)) (cur input : List Char),
      input.length ≤ fuel →
      parseArgsLoop fuel sq args cur input = parseArgsFrom sq args cur input := by
  intro fuel
  induction fuel using Nat.strong_induction_on with
  | _ fuel ih =>
    intro sq args cur input hlen
    cases input with
    | nil =>
      cases fuel <;> cases sq <;> rfl
    | cons c rest =>
      cases fuel with
      | zero => simp at hlen
      | succ fuel =>
        have hrest : rest.length ≤ fuel := by
          simpa [Nat.succ_le_succ_iff] using hlen
        have hVia : ∀ (sq2 : Option Char) (args2 : List (List Char)) (cur2 : List Char),
            parseArgsLoop fuel sq2 args2 cur2 rest =
            parseArgsLoop rest.length sq2 args2 cur2 rest := by
          intro sq2 args2 cur2
          rw [ih fuel (Nat.lt_succ_self fuel) sq2 args2 cur2 rest hrest]
          rfl
        have hSkip : ∀ (r : List Char), skipWhitespace rest = some r →
            ∀ (args2 : List (List Char)),
            parseArgsLoop fuel none args2 [] r =
            parseArgsLoop rest.length none args2 [] r := by
          intro r hr args2
          rw [ih fuel (Nat.lt_succ_self fuel) none args2 [] r
            (le_trans (skipWhitespace_length_le hr) hrest)]
          rw [ih rest.length (Nat.lt_succ_of_le hrest) none args2 [] r
            (skipWhitespace_length_le hr)]
        show parseArgsLoop (fuel + 1) sq args cur (c :: rest) =
          parseArgsLoop (rest.length + 1) sq args cur (c :: rest)
        cases sq with
        | some q =>
          by_cases hc : c = q
          · simp only [parseArgsLoop, if_pos hc]
            rcases hr : skipWhitespace rest with _ | r
            · rfl
            · show parseArgsLoop fuel none (args ++ [jsTrim cur]) [] r =
                parseArgsLoop rest.length none (args ++ [jsTrim cur]) [] r
              exact hSkip r hr _
          · simp only [parseArgsLoop, if_neg hc]
            exact hVia _ _ _
        | none =>
          by_cases hq : isQuoteChar c = true
          · simp only [parseArgsLoop, if_pos hq]
            exact hVia _ _ _
          · by_cases hw : isWsChar c = true
            · simp only [parseArgsLoop, if_neg hq, if_pos hw]
              rcases hr : skipWhitespace rest with _ | r
              · rfl
              · show parseArgsLoop fuel none (args ++ [jsTrim cur]) [] r =
                  parseArgsLoop rest.length none (args ++ [jsTrim cur]) [] r
                exact hSkip r hr _
            · simp only [parseArgsLoop, if_neg hq, if_neg hw]
              exact hVia _ _ _

theorem parseArgsFrom_nil_some (q : Char) (args : List (List Char)) (cur : List Char) :
    parseArgsFrom (some q) args cur [] = .error .mk := rfl

theorem parseArgsFrom_nil_none (args : List (List Char)) (cur : List Char) :
    parseArgsFrom none args cur [] =
      if cur ≠ [] then .ok (args ++ [jsTrim cur]) else .ok args := rfl

theorem parseArgsFrom_close (q : Char) (args : List (List Char)) (cur rest : List Char) :
    parseArgsFrom (some q) args cur (q :: rest) =
      match skipWhitespace rest with
      | none => .ok (args ++ [jsTrim cur])
      | some r => parseArgsFrom none (args ++ [jsTrim cur]) [] r := by
  show parseArgsLoop (rest.length + 1) (some q) args cur (q :: rest) = _
  simp only [parseArgsLoop, if_true]
  rcases hr : skipWhitespace rest with _ | r
  · rfl
  · show parseArgsLoop rest.length none (args ++ [jsTrim cur]) [] r =
      parseArgsFrom none (args ++ [jsTrim cur]) [] r
    exact parseArgsLoop_adequate rest.length none (args ++ [jsTrim cur]) [] r
      (skipWhitespace_length_le hr)

theorem parseArgsFrom_quoted_step {q c : Char} (hne : c ≠ q)
    (args : List (List Char)) (cur rest : List Char) :
    parseArgsFrom (some q) args cur (c :: rest) =
      parseArgsFrom (some q) args (cur ++ [c]) rest := by
  show parseArgsLoop (rest.length + 1) (some q) args cur (c :: rest) = _
  simp only [parseArgsLoop]
  rw [if_neg hne]
  rfl

theorem parseArgsFrom_open {c : Char} (hq : isQuoteChar c = true)
    (args : List (List Char)) (cur rest : List Char) :
    parseArgsFrom none args cur (c :: rest) =
      parseArgsFrom (some c)
        (if jsTrim cur ≠ [] then args ++ [jsTrim cur] else args) [] rest := by
  show parseArgsLoop (rest.length + 1) none args cur (c :: rest) = _
  simp only [parseArgsLoop]
  rw [if_pos hq]
  rfl

theorem parseArgsFrom_ws {c : Char} (hw : isWsChar c = true)
    (args : List (List Char)) (cur rest : List Char) :
    parseArgsFrom none args cur (c :: rest) =
      match skipWhitespace rest with
      | none => .ok (args ++ [jsTrim cur])
      | some r => parseArgsFrom none (args ++ [jsTrim cur]) [] r := by
  show parseArgsLoop (rest.length + 1) none args cur (c :: rest) = _
  simp only [parseArgsLoop]
  rw [if_neg (by simp [not_isQuoteChar_of_isWsChar hw]), if_pos hw]
  rcases hr : skipWhitespace rest with _ | r
  · rfl
  · show parseArgsLoop rest.length none (args ++ [jsTrim cur]) [] r =
      parseArgsFrom none (args ++ [jsTrim cur]) [] r
    exact parseArgsLoop_adequate rest.length none (args ++ [jsTrim cur]) [] r
      (skipWhitespace_length_le hr)

theorem parseArgsFrom_plain {c : Char} (hq : isQuoteChar c = false)
    (hw : isWsChar c = false) (args : List (List Char)) (cur rest : List Char) :
    parseArgsFrom none args cur (c :: rest) =
      parseArgsFrom none args (cur ++ [c]) rest := by
  show parseArgsLoop (rest.length + 1) none args cur (c :: rest) = _
  simp only [parseArgsLoop]
  rw [if_neg (by simp [hq]), if_neg (by simp [hw])]
  rfl

theorem parseArgsFrom_scan_quoted {q : Char} :
    ∀ (mid : List Char), (∀ c ∈ mid, c ≠ q) →
    ∀ (args : List (List Char)) (cur rest : List Char),
    parseArgsFrom (some q) args cur (mid ++ q :: rest) =
      match skipWhitespace rest with
      | none => .ok (args ++ [jsTrim (cur ++ mid)])
      | some r => parseArgsFrom none (args ++ [jsTrim (cur ++ mid)]) [] r := by
  intro mid
  induction mid with
  | nil =>
    intro _ args cur rest
    rw [List.nil_append, parseArgsFrom_close q args cur rest]
    simp
  | cons m t ih =>
    intro hmem args cur rest
    have hne : m ≠ q := hmem m (List.mem_cons_self m t)
    rw [List.cons_append, parseArgsFrom_quoted_step hne]
    rw [ih (fun c hc => hmem c (List.mem_cons_of_mem m hc)) args (cur ++ [m]) rest]
    have hap : (cur ++ [m]) ++ t = cur ++ m :: t := by simp
    rw [hap]

theorem parseArgsFrom_scan_plain :
    ∀ (u : List Char), (∀ c ∈ u, isQuoteChar c = false ∧ isWsChar c = false) →
    ∀ (args : List (List Char)) (cur rest : List Char),
    parseArgsFrom none args cur (u ++ rest) = parseArgsFrom none args (cur ++ u) rest := by
  intro u
  induction u with
  | nil => intro _ args cur rest; simp
  | cons a t ih =>
    intro hmem args cur rest
    obtain ⟨hq, hw⟩ := hmem a (List.mem_cons_self a t)
    rw [List.cons_append, parseArgsFrom_plain hq hw]
    rw [ih (fun c hc => hmem c (List.mem_cons_of_mem a hc)) args (cur ++ [a]) rest]
    have hap : (cur ++ [a]) ++ t = cur ++ a :: t := by simp
    rw [hap]

/-! ### The unmatched-quote error (claim C2) -/

theorem quoteONC_cons_some (q c : Char) (rest : List Char) :
    quoteOpenedNeverClosed (some q) (c :: rest) =
      quoteOpenedNeverClosed (if c = q then none else some q) rest := rfl

theorem quoteONC_cons_none (c : Char) (rest : List Char) :
    quoteOpenedNeverClosed none (c :: rest) =
      quoteOpenedNeverClosed (if isQuoteChar c then some c else none) rest := rfl

theorem quoteONC_ws_prefix :
    ∀ (pre r : List Char), (∀ c ∈ pre, isWsChar c = true) →
    quoteOpenedNeverClosed none (pre ++ r) = quoteOpenedNeverClosed none r := by
  intro pre
  induction pre with
  | nil => intro r _; rw [List.nil_append]
  | cons a t ih =>
    intro r hmem
    rw [List.cons_append, quoteONC_cons_none,
      if_neg (by simp [not_isQuoteChar_of_isWsChar (hmem a (List.mem_cons_self a t))])]
    exact ih r (fun c hc => hmem c (List.mem_cons_of_mem a hc))

theorem quoteONC_all_ws (s : List Char) (h : ∀ c ∈ s, isWsChar c = true) :
    quoteOpenedNeverClosed none s = false := by
  have h2 := quoteONC_ws_prefix s [] h
  rw [List.append_nil] at h2
  rw [h2]
  rfl

theorem parseArgsFrom_error_iff_nil (sq : Option Char) (args : List (List Char))
    (cur : List Char) :
    (parseArgsFrom sq args cur [] = .error .mk ↔
      quoteOpenedNeverClosed sq [] = true) := by
  cases sq with
  | some q => simp [parseArgsFrom_nil_some, quoteOpenedNeverClosed, Option.isSome]
  | none =>
    rw [parseArgsFrom_nil_none]
    by_cases hc : cur ≠ [] <;> simp [hc, quoteOpenedNeverClosed, Option.isSome]

theorem parseArgsFrom_error_iff :
    ∀ (n : Nat) (input : List Char), input.length ≤ n →
    ∀ (sq : Option Char) (args : List (List Char)) (cur : List Char),
    (parseArgsFrom sq args cur input = .error .mk ↔
      quoteOpenedNeverClosed sq input = true) := by
  intro n
  induction n with
  | zero =>
    intro input hlen sq args cur
    have h0 : input = [] := List.length_eq_zero.mp (Nat.le_zero.mp hlen)
    subst h0
    exact parseArgsFrom_error_iff_nil sq args cur
  | succ n ih =>
    intro input hlen sq args cur
    cases input with
    | nil => exact parseArgsFrom_error_iff_nil sq args cur
    | cons c rest =>
      have hrest : rest.length ≤ n := by simpa [Nat.succ_le_succ_iff] using hlen
      cases sq with
      | some q =>
        by_cases hc : c = q
        · subst hc
          rw [parseArgsFrom_close, quoteONC_cons_some, if_pos rfl]
          rcases hr : skipWhitespace rest with _ | r
          · have hall := (skipWhitespace_eq_none_iff rest).mp hr
            simp [quoteONC_all_ws rest hall]
          · obtain ⟨pre, hpre, hprews⟩ := skipWhitespace_decomp hr
            rw [hpre, quoteONC_ws_prefix pre r hprews]
            exact ih r (le_trans (skipWhitespace_length_le hr) hrest) none _ []
        · rw [parseArgsFrom_quoted_step hc, quoteONC_cons_some, if_neg hc]
          exact ih rest hrest (some q) args (cur ++ [c])
      | none =>
        rw [quoteONC_cons_none]
        by_cases hq : isQuoteChar c = true
        · rw [parseArgsFrom_open hq, if_pos hq]
          exact ih rest hrest (some c) _ []
        · by_cases hw : isWsChar c = true
          · rw [parseArgsFrom_ws hw, if_neg (by simp [hq])]
            rcases hr : skipWhitespace rest with _ | r
            · have hall := (skipWhitespace_eq_none_iff rest).mp hr
              simp [quoteONC_all_ws rest hall]
            · obtain ⟨pre, hpre, hprews⟩ := skipWhitespace_decomp hr
              rw [hpre, quoteONC_ws_prefix pre r hprews]
              exact ih r (le_trans (skipWhitespace_length_le hr) hrest) none _ []
          · rw [parseArgsFrom_plain (by simpa using hq) (by simpa using hw),
              if_neg (by simp [hq])]
            exact ih rest hrest none args (cur ++ [c])

/-- C2: `parseArgs` fails with `UnmatchedQuote` if and only if a quote is
opened but never closed — the input ends while the scan is inside an open
quote (and on every other input it returns a token list without error, the
other side of the `Except`). -/
theorem parseArgs_error_iff_unclosed_quote (s : List Char) :
    parseArgs s = .error .mk ↔ quoteOpenedNeverClosed none s = true := by
  unfold parseArgs
  rcases hr : skipWhitespace s with _ | r
  · have hall := (skipWhitespace_eq_none_iff s).mp hr
    simp [quoteONC_all_ws s hall]
  · obtain ⟨pre, hpre, hprews⟩ := skipWhitespace_decomp hr
    rw [hpre, quoteONC_ws_prefix pre r hprews]
    exact parseArgsFrom_error_iff r.length r le_rfl none [] []

/-! ### Helpers about quote characters and separators -/

theorem isQuoteChar_cases {q : Char} (hq : isQuoteChar q = true) :
    q = dqChar ∨ q = sqChar := by
  simpa [isQuoteChar] using hq

theorem ne_quotes_of_not_isQuoteChar {c : Char} (h : isQuoteChar c = false) :
    c ≠ dqChar ∧ c ≠ sqChar := by
  simpa [isQuoteChar] using h

theorem not_isWsChar_of_isQuoteChar {q : Char} (hq : isQuoteChar q = true) :
    isWsChar q = false := by
  rcases isQuoteChar_cases hq with h | h <;> subst h <;> decide

theorem not_isWsChar_of_not_isTrimWs {c : Char} (h : isTrimWs c = false) :
    isWsChar c = false := by
  cases hw : isWsChar c
  · rfl
  · rw [isTrimWs_of_isWsChar hw] at h
    cases h

theorem skipWhitespace_cons_ws {c : Char} {l : List Char}
    (h : isWsChar c = true) : skipWhitespace (c :: l) = skipWhitespace l := by
  simp [skipWhitespace, List.dropWhile_cons, h]

/-! ### Claim C3: a closing quote glued to more characters starts a new token -/

/-- C3: in every input of the shape `q t q u` — a quoted segment `t` whose
closing quote is immediately followed (no separating space) by a nonempty
run `u` of non-whitespace, non-quote characters — `parseArgs` starts a new
unquoted token at `u` instead of appending to the quoted token: the result
is the two tokens `[trim t, u]`, not one merged token. In particular
`parseArgs "'hello'abc" = .ok ["hello", "abc"]`. -/
theorem parseArgs_adjacent_quote_new_token (q : Char) (t u : List Char)
    (hq : isQuoteChar q = true)
    (ht : ∀ c ∈ t, c ≠ q)
    (hu : u ≠ [])
    (humem : ∀ c ∈ u, isTrimWs c = false ∧ isQuoteChar c = false) :
    parseArgs (q :: (t ++ q :: u)) = .ok [jsTrim t, u] := by
  unfold parseArgs
  rw [skipWhitespace_cons_not_ws (not_isWsChar_of_isQuoteChar hq)]
  show parseArgsFrom none [] [] (q :: (t ++ q :: u)) = _
  rw [parseArgsFrom_open hq, if_neg (by simp [jsTrim])]
  rw [parseArgsFrom_scan_quoted t ht [] [] u]
  obtain ⟨c, u2, rfl⟩ : ∃ c u2, u = c :: u2 := by
    cases u with
    | nil => exact absurd rfl hu
    | cons c u2 => exact ⟨c, u2, rfl⟩
  rw [skipWhitespace_cons_not_ws
    (not_isWsChar_of_not_isTrimWs (humem c (List.mem_cons_self c u2)).1)]
  show parseArgsFrom none ([] ++ [jsTrim ([] ++ t)]) [] (c :: u2) = _
  have hplain := parseArgsFrom_scan_plain (c :: u2)
    (fun x hx => ⟨(humem x hx).2, not_isWsChar_of_not_isTrimWs (humem x hx).1⟩)
    ([] ++ [jsTrim ([] ++ t)]) [] []
  rw [List.append_nil] at hplain
  rw [hplain, List.nil_append, parseArgsFrom_nil_none, if_pos (by simp)]
  simp [jsTrim_eq_self_of_forall (c :: u2) (fun x hx => (humem x hx).1)]

/-- Witness for C3 at the spec's example: `'hello'abc` parses to the two
tokens `hello` and `abc`. -/
theorem parseArgs_adjacent_quote_new_token_witness :
    parseArgs (sqChar :: ((("hello").data) ++ sqChar :: (("abc").data))) =
      .ok [jsTrim (("hello").data), ("abc").data] :=
  parseArgs_adjacent_quote_new_token sqChar (("hello").data) (("abc").data)
    (by decide) (by decide) (by decide) (by decide)

/-! ### Invariants of the produced tokens (claims C9, C10) -/

theorem tokenInv_push {cur : List Char} (hdq : dqChar ∉ cur) (_hsq : sqChar ∉ cur) :
    jsTrim (jsTrim cur) = jsTrim cur ∧
      (dqChar ∉ jsTrim cur ∨ sqChar ∉ jsTrim cur) :=
  ⟨jsTrim_idem cur, Or.inl (fun h => hdq (mem_of_mem_jsTrim h))⟩

theorem tokenInv_push_quoted {q : Char} {cur : List Char}
    (hq : isQuoteChar q = true) (hcur : q ∉ cur) :
    jsTrim (jsTrim cur) = jsTrim cur ∧
      (dqChar ∉ jsTrim cur ∨ sqChar ∉ jsTrim cur) := by
  refine ⟨jsTrim_idem cur, ?_⟩
  rcases isQuoteChar_cases hq with h | h <;> subst h
  · exact Or.inl (fun h2 => hcur (mem_of_mem_jsTrim h2))
  · exact Or.inr (fun h2 => hcur (mem_of_mem_jsTrim h2))

theorem parseArgsFrom_tokens_inv_nil :
    ∀ (sq : Option Char) (args res : List (List Char)) (cur : List Char),
    parseArgsFrom sq args cur [] = .ok res →
    (∀ t ∈ args, jsTrim t = t ∧ (dqChar ∉ t ∨ sqChar ∉ t)) →
    (sq = none → dqChar ∉ cur ∧ sqChar ∉ cur) →
    ∀ t ∈ res, jsTrim t = t ∧ (dqChar ∉ t ∨ sqChar ∉ t) := by
  intro sq args res cur hres hargs hnone
  cases sq with
  | some q => rw [parseArgsFrom_nil_some] at hres; cases hres
  | none =>
    obtain ⟨hdq, hsq⟩ := hnone rfl
    rw [parseArgsFrom_nil_none] at hres
    by_cases hc : cur ≠ []
    · rw [if_pos hc] at hres
      cases hres
      intro t ht
      rcases List.mem_append.mp ht with h | h
      · exact hargs t h
      · have h2 := List.mem_singleton.mp h
        subst h2
        exact tokenInv_push hdq hsq
    · rw [if_neg hc] at hres
      cases hres
      exact hargs

theorem parseArgsFrom_tokens_inv :
    ∀ (n : Nat) (input : List Char), input.length ≤ n →
    ∀ (sq : Option Char) (args res : List (List Char)) (cur : List Char),
    parseArgsFrom sq args cur input = .ok res →
    (∀ t ∈ args, jsTrim t = t ∧ (dqChar ∉ t ∨ sqChar ∉ t)) →
    (∀ q, sq = some q → isQuoteChar q = true ∧ q ∉ cur) →
    (sq = none → dqChar ∉ cur ∧ sqChar ∉ cur) →
    ∀ t ∈ res, jsTrim t = t ∧ (dqChar ∉ t ∨ sqChar ∉ t) := by
  intro n
  induction n with
  | zero =>
    intro input hlen sq args res cur hres hargs _ hnone
    have h0 : input = [] := List.length_eq_zero.mp (Nat.le_zero.mp hlen)
    subst h0
    exact parseArgsFrom_tokens_inv_nil sq args res cur hres hargs hnone
  | succ n ih =>
    intro input hlen sq args res cur hres hargs hsome hnone
    cases input with
    | nil => exact parseArgsFrom_tokens_inv_nil sq args res cur hres hargs hnone
    | cons c rest =>
      have hrest : rest.length ≤ n := by simpa [Nat.succ_le_succ_iff] using hlen
      cases sq with
      | some q =>
        obtain ⟨hqq, hqcur⟩ := hsome q rfl
        by_cases hc : c = q
        · subst hc
          rw [parseArgsFrom_close] at hres
          rcases hr : skipWhitespace rest with _ | r <;> rw [hr] at hres
          · cases hres
            intro t ht
            rcases List.mem_append.mp ht with h | h
            · exact hargs t h
            · have h2 := List.mem_singleton.mp h
              subst h2
              exact tokenInv_push_quoted hqq hqcur
          · refine ih r (le_trans (skipWhitespace_length_le hr) hrest) none
              (args ++ [jsTrim cur]) res [] hres ?_ ?_ ?_
            · intro t ht
              rcases List.mem_append.mp ht with h | h
              · exact hargs t h
              · have h2 := List.mem_singleton.mp h
                subst h2
                exact tokenInv_push_quoted hqq hqcur
            · intro q2 hq2; cases hq2
            · intro _
              exact ⟨List.not_mem_nil _, List.not_mem_nil _⟩
        · rw [parseArgsFrom_quoted_step hc] at hres
          refine ih rest hrest (some q) args res (cur ++ [c]) hres hargs ?_ ?_
          · intro q2 hq2
            injection hq2 with h2
            subst h2
            refine ⟨hqq, ?_⟩
            intro hmem
            rcases List.mem_append.mp hmem with h | h
            · exact hqcur h
            · exact hc (List.mem_singleton.mp h).symm
          · intro h; cases h
      | none =>
        obtain ⟨hdq, hsq⟩ := hnone rfl
        by_cases hqc : isQuoteChar c = true
        · rw [parseArgsFrom_open hqc] at hres
          refine ih rest hrest (some c) _ res [] hres ?_ ?_ ?_
          · by_cases hne : jsTrim cur ≠ []
            · rw [if_pos hne]
              intro t ht
              rcases List.mem_append.mp ht with h | h
              · exact hargs t h
              · have h2 := List.mem_singleton.mp h
                subst h2
                exact tokenInv_push hdq hsq
            · rw [if_neg hne]
              exact hargs
          · intro q2 hq2
            injection hq2 with h2
            subst h2
            exact ⟨hqc, List.not_mem_nil _⟩
          · intro h; cases h
        · by_cases hwc : isWsChar c = true
          · rw [parseArgsFrom_ws hwc] at hres
            rcases hr : skipWhitespace rest with _ | r <;> rw [hr] at hres
            · cases hres
              intro t ht
              rcases List.mem_append.mp ht with h | h
              · exact hargs t h
              · have h2 := List.mem_singleton.mp h
                subst h2
                exact tokenInv_push hdq hsq
            · refine ih r (le_trans (skipWhitespace_length_le hr) hrest) none
                (args ++ [jsTrim cur]) res [] hres ?_ ?_ ?_
              · intro t ht
                rcases List.mem_append.mp ht with h | h
                · exact hargs t h
                · have h2 := List.mem_singleton.mp h
                  subst h2
                  exact tokenInv_push hdq hsq
              · intro q2 hq2; cases hq2
              · intro _
                exact ⟨List.not_mem_nil _, List.not_mem_nil _⟩
          · rw [parseArgsFrom_plain (by simpa using hqc) (by simpa using hwc)] at hres
            obtain ⟨hcd, hcs⟩ := ne_quotes_of_not_isQuoteChar (by simpa using hqc)
            refine ih rest hrest none args res (cur ++ [c]) hres hargs ?_ ?_
            · intro q2 hq2; cases hq2
            · intro _
              constructor
              · intro hmem
                rcases List.mem_append.mp hmem with h | h
                · exact hdq h
                · exact hcd (List.mem_singleton.mp h).symm
              · intro hmem
                rcases List.mem_append.mp hmem with h | h
                · exact hsq h
                · exact hcs (List.mem_singleton.mp h).symm

theorem parseArgs_tokens_inv (s : List Char) (args : List (List Char))
    (h : parseArgs s = .ok args) :
    ∀ t ∈ args, jsTrim t = t ∧ (dqChar ∉ t ∨ sqChar ∉ t) := by
  unfold parseArgs at h
  rcases hr : skipWhitespace s with _ | r <;> rw [hr] at h
  · cases h
    intro t ht
    cases ht
  · exact parseArgsFrom_tokens_inv r.length r le_rfl none [] args [] h
      (by intro t ht; cases ht)
      (by intro q hq; cases hq)
      (by intro _; exact ⟨List.not_mem_nil _, List.not_mem_nil _⟩)

/-- C10: on every input on which `parseArgs` succeeds, every returned token
is trimmed — it carries no leading or trailing whitespace, including tokens
built from quoted segments, whose leading and trailing whitespace is removed
even though interior whitespace is preserved. -/
theorem parseArgs_tokens_trimmed (s : List Char) (args : List (List Char))
    (h : parseArgs s = .ok args) : ∀ t ∈ args, jsTrim t = t :=
  fun t ht => (parseArgs_tokens_inv s args h t ht).1

/-- Witness for C10: the quoted segment `' hello world '` yields the token
`hello world`, a fixed point of trimming. -/
theorem parseArgs_tokens_trimmed_witness :
    jsTrim (("hello world").data) = ("hello world").data :=
  parseArgs_tokens_trimmed (("' hello world '").data) [("hello world").data]
    (by decide) (("hello world").data) (by decide)

/-! ### Claim C9: re-quoting and re-joining the tokens parses back -/

theorem requoteChar_isQuote (t : List Char) : isQuoteChar (requoteChar t) = true := by
  unfold requoteChar
  by_cases h : sqChar ∈ t
  · rw [if_pos h]; decide
  · rw [if_neg h]; decide

theorem requoteChar_not_mem {t : List Char} (hinv : dqChar ∉ t ∨ sqChar ∉ t) :
    requoteChar t ∉ t := by
  unfold requoteChar
  by_cases h : sqChar ∈ t
  · rw [if_pos h]
    rcases hinv with h2 | h2
    · exact h2
    · exact absurd h h2
  · rw [if_neg h]
    exact h

theorem rejoinQuoted_cons (t : List Char) (rest : List (List Char)) :
    ∃ tail, rejoinQuoted (t :: rest) = requoteChar t :: tail := by
  cases rest with
  | nil => exact ⟨t ++ [requoteChar t], rfl⟩
  | cons r0 rest2 =>
    exact ⟨(t ++ [requoteChar t]) ++ ' ' :: rejoinQuoted (r0 :: rest2), rfl⟩

theorem parseArgsFrom_rejoin :
    ∀ (ts : List (List Char)),
    (∀ t ∈ ts, jsTrim t = t ∧ (dqChar ∉ t ∨ sqChar ∉ t)) →
    ∀ (args : List (List Char)),
    parseArgsFrom none args [] (rejoinQuoted ts) = .ok (args ++ ts) := by
  intro ts
  induction ts with
  | nil =>
    intro _ args
    rw [show rejoinQuoted [] = [] from rfl, parseArgsFrom_nil_none, if_neg (by simp)]
    simp
  | cons t rest ih =>
    intro hts args
    obtain ⟨htr, hinv⟩ := hts t (List.mem_cons_self t rest)
    have hq := requoteChar_isQuote t
    have hnm := requoteChar_not_mem hinv
    have hct : ∀ c ∈ t, c ≠ requoteChar t := fun c hc he => hnm (he ▸ hc)
    cases rest with
    | nil =>
      show parseArgsFrom none args [] (requoteChar t :: (t ++ [requoteChar t])) = _
      rw [parseArgsFrom_open hq, if_neg (by simp [jsTrim])]
      rw [parseArgsFrom_scan_quoted t hct args [] []]
      show Except.ok (args ++ [jsTrim ([] ++ t)]) = _
      rw [List.nil_append, htr]
    | cons r0 rest2 =>
      show parseArgsFrom none args []
        (requoteChar t :: ((t ++ [requoteChar t]) ++ ' ' :: rejoinQuoted (r0 :: rest2))) = _
      rw [parseArgsFrom_open hq, if_neg (by simp [jsTrim])]
      have hre : (t ++ [requoteChar t]) ++ ' ' :: rejoinQuoted (r0 :: rest2) =
          t ++ requoteChar t :: ' ' :: rejoinQuoted (r0 :: rest2) := by simp
      rw [hre, parseArgsFrom_scan_quoted t hct args [] (' ' :: rejoinQuoted (r0 :: rest2))]
      rw [skipWhitespace_cons_ws (by decide)]
      obtain ⟨tail, htail⟩ := rejoinQuoted_cons r0 rest2
      rw [htail, skipWhitespace_cons_not_ws
        (not_isWsChar_of_isQuoteChar (requoteChar_isQuote r0))]
      show parseArgsFrom none (args ++ [jsTrim ([] ++ t)]) [] (requoteChar r0 :: tail) = _
      rw [← htail, List.nil_append, htr]
      rw [ih (fun x hx => hts x (List.mem_cons_of_mem t hx)) (args ++ [t])]
      simp

/-- C9: for every input on which `parseArgs` succeeds, re-joining the
resulting tokens with separator spaces, each token individually re-quoted,
and re-tokenizing succeeds and reproduces the same token count as the
original parse (in fact the very same tokens). -/
theorem parseArgs_rejoin_same_count (s : List Char) (args : List (List Char))
    (h : parseArgs s = .ok args) :
    ∃ args2, parseArgs (rejoinQuoted args) = .ok args2 ∧
      args2.length = args.length := by
  refine ⟨args, ?_, rfl⟩
  have hinv := parseArgs_tokens_inv s args h
  cases args with
  | nil => rfl
  | cons t rest =>
    unfold parseArgs
    obtain ⟨tail, htail⟩ := rejoinQuoted_cons t rest
    rw [htail, skipWhitespace_cons_not_ws
      (not_isWsChar_of_isQuoteChar (requoteChar_isQuote t))]
    show parseArgsFrom none [] [] (requoteChar t :: tail) = _
    rw [← htail, parseArgsFrom_rejoin (t :: rest) hinv []]
    rfl

/-- Witness for C9: `a 'b c'` parses to two tokens, and the re-quoted,
re-joined string parses back to two tokens. -/
theorem parseArgs_rejoin_same_count_witness :
    ∃ args2, parseArgs (rejoinQuoted [("a").data, ("b c").data]) = .ok args2 ∧
      args2.length = ([("a").data, ("b c").data] : List (List Char)).length :=
  parseArgs_rejoin_same_count (("a 'b c'").data) [("a").data, ("b c").data]
    (by decide)

/-! ### Claim C8: where empty tokens can come from -/

theorem parseArgsFrom_no_empty_token_nil (args res : List (List Char))
    (cur : List Char) (hres : parseArgsFrom none args cur [] = .ok res)
    (hargs : ∀ t ∈ args, t ≠ []) (hcur : ∀ c ∈ cur, isTrimWs c = false) :
    ∀ t ∈ res, t ≠ [] := by
  rw [parseArgsFrom_nil_none] at hres
  by_cases hc : cur ≠ []
  · rw [if_pos hc] at hres
    cases hres
    intro t ht
    rcases List.mem_append.mp ht with h | h
    · exact hargs t h
    · have h2 := List.mem_singleton.mp h
      subst h2
      rw [jsTrim_eq_self_of_forall cur hcur]
      exact hc
  · rw [if_neg hc] at hres
    cases hres
    exact hargs

theorem parseArgsFrom_no_empty_token :
    ∀ (n : Nat) (input : List Char), input.length ≤ n →
    (∀ c ∈ input, isQuoteChar c = false ∧ (isTrimWs c = true → isWsChar c = true)) →
    ∀ (args res : List (List Char)) (cur : List Char),
    parseArgsFrom none args cur input = .ok res →
    (∀ t ∈ args, t ≠ []) →
    (∀ c ∈ cur, isTrimWs c = false) →
    (∀ c, input.head? = some c → cur = [] → isWsChar c = false) →
    ∀ t ∈ res, t ≠ [] := by
  intro n
  induction n with
  | zero =>
    intro input hlen _ args res cur hres hargs hcur _
    have h0 : input = [] := List.length_eq_zero.mp (Nat.le_zero.mp hlen)
    subst h0
    exact parseArgsFrom_no_empty_token_nil args res cur hres hargs hcur
  | succ n ih =>
    intro input hlen hin args res cur hres hargs hcur hhead
    cases input with
    | nil => exact parseArgsFrom_no_empty_token_nil args res cur hres hargs hcur
    | cons c rest =>
      have hrest : rest.length ≤ n := by simpa [Nat.succ_le_succ_iff] using hlen
      obtain ⟨hqc, himp⟩ := hin c (List.mem_cons_self c rest)
      have hinr : ∀ x ∈ rest,
          isQuoteChar x = false ∧ (isTrimWs x = true → isWsChar x = true) :=
        fun x hx => hin x (List.mem_cons_of_mem c hx)
      by_cases hw : isWsChar c = true
      · rw [parseArgsFrom_ws hw] at hres
        have hcur_ne : cur ≠ [] := by
          intro hc
          rw [hhead c rfl hc] at hw
          cases hw
        have hpusht : jsTrim cur = cur := jsTrim_eq_self_of_forall cur hcur
        rcases hr : skipWhitespace rest with _ | r <;> rw [hr] at hres
        · cases hres
          intro t ht
          rcases List.mem_append.mp ht with h | h
          · exact hargs t h
          · have h2 := List.mem_singleton.mp h
            subst h2
            rw [hpusht]
            exact hcur_ne
        · have hrsub : ∀ x ∈ r, x ∈ rest := by
            intro x hx
            rw [skipWhitespace_eq_some hr] at hx
            exact (List.dropWhile_suffix _).sublist.subset hx
          refine ih r (le_trans (skipWhitespace_length_le hr) hrest)
            (fun x hx => hinr x (hrsub x hx)) (args ++ [jsTrim cur]) res [] hres
            ?_ ?_ ?_
          · intro t ht
            rcases List.mem_append.mp ht with h | h
            · exact hargs t h
            · have h2 := List.mem_singleton.mp h
              subst h2
              rw [hpusht]
              exact hcur_ne
          · intro x hx; cases hx
          · intro x hx _
            rw [skipWhitespace_eq_some hr] at hx
            exact head?_dropWhile_eq_some _ _ _ hx
      · have hw2 : isWsChar c = false := by simpa using hw
        rw [parseArgsFrom_plain hqc hw2] at hres
        have hct : isTrimWs c = false := by
          cases htw : isTrimWs c
          · rfl
          · rw [himp htw] at hw2; cases hw2
        refine ih rest hrest hinr args res (cur ++ [c]) hres hargs ?_ ?_
        · intro x hx
          rcases List.mem_append.mp hx with h | h
          · exact hcur x h
          · have h2 := List.mem_singleton.mp h
            subst h2
            exact hct
        · intro x _ hc2
          exact absurd hc2 (by simp)

/-- C8 (amended): `parseArgs` of the empty string, of a single space and of
two spaces yields the empty token list, and an empty-string token appears in
the output only when the input holds a quote character or a whitespace
character outside the separator set {space, tab} (such as `\n`, which the
token trim removes although the tokenizer does not split on it); an empty
unquoted run never produces a token. -/
theorem parseArgs_empty_token_sources :
    (parseArgs [] = .ok []) ∧ (parseArgs ((" ").data) = .ok []) ∧
    (parseArgs (("  ").data) = .ok []) ∧
    ∀ (s : List Char) (args : List (List Char)),
      parseArgs s = .ok args → [] ∈ args →
      ∃ c ∈ s, isQuoteChar c = true ∨ (isTrimWs c = true ∧ isWsChar c = false) := by
  refine ⟨by decide, by decide, by decide, ?_⟩
  intro s args h hmem
  by_contra hno
  push_neg at hno
  have hin : ∀ c ∈ s, isQuoteChar c = false ∧ (isTrimWs c = true → isWsChar c = true) := by
    intro c hc
    obtain ⟨h1, h2⟩ := hno c hc
    exact ⟨by simpa using h1, fun ht => by simpa using h2 ht⟩
  unfold parseArgs at h
  rcases hr : skipWhitespace s with _ | r <;> rw [hr] at h
  · cases h; cases hmem
  · obtain ⟨pre, hpre, _⟩ := skipWhitespace_decomp hr
    have hinr : ∀ c ∈ r, isQuoteChar c = false ∧ (isTrimWs c = true → isWsChar c = true) :=
      fun c hc => hin c (by rw [hpre]; exact List.mem_append.mpr (Or.inr hc))
    exact parseArgsFrom_no_empty_token r.length r le_rfl hinr [] args [] h
      (by intro t ht; cases ht) (by intro c hc; cases hc)
      (by intro c hc _
          rw [skipWhitespace_eq_some hr] at hc
          exact head?_dropWhile_eq_some _ _ _ hc)
      [] hmem rfl

/-- Counterexample to C8 as stated: the input `"\n"` contains no quote
character at all — in particular no explicitly quoted empty segment — yet
`parseArgs` returns the one-element list holding the empty token (the
unquoted run `"\n"` is trimmed to nothing by the JavaScript `trim`, whose
whitespace class is larger than the tokenizer's separator set). -/
theorem parseArgs_newline_empty_token :
    parseArgs (("\n").data) = .ok [[]] ∧
    (("\n").data).all (fun c => !(isQuoteChar c)) = true := by
  exact ⟨by decide, by decide⟩

/-! ### Claims C5 and C6: `unquote` -/

/-- Counterexample to C5 as stated: on the one-character input consisting of
the single-quote character, `unquote` raises the mismatched-quote error — it
does not pass the character through unchanged. (The source's `isQuote` test
also looks at the FIRST character, and the `end` slot holds the number 0,
which equals no character, so the mismatch branch throws.) -/
theorem unquote_single_quote_cex :
    unquote [sqChar] = .error .mk ∧ ¬(unquote [sqChar] = .ok [sqChar]) := by
  exact ⟨by decide, by decide⟩

/-- C5 (amended): a one-character input whose single character is a quote
char (`"` or `'`) is treated as an unmatched quote: `unquote` raises the
mismatched-quote error rather than returning the character unchanged. -/
theorem unquote_single_quote_char_errs (c : Char) (h : isQuoteChar c = true) :
    unquote [c] = .error .mk := by
  rcases isQuoteChar_cases h with h2 | h2 <;> subst h2 <;> decide

/-- Witness for C5 (amended) at the double-quote character. -/
theorem unquote_single_quote_char_errs_witness :
    unquote [dqChar] = .error .mk :=
  unquote_single_quote_char_errs dqChar (by decide)

/-- C6: `unquote` first trims surrounding whitespace; then (i) if the
trimmed string has length at least 2 and begins and ends with the same quote
char, it returns the substring strictly between the two quote chars verbatim
(internal whitespace untouched); (ii) if exactly one side looks quoted, it
raises the mismatched-quote error; (iii) if neither side is quoted, it
returns the trimmed string unchanged (so `unquote "  'hello'  " = "hello"`
and `unquote "hello" = "hello"`). -/
theorem unquote_contract :
    (∀ (s : List Char) (q : Char), isQuoteChar q = true →
      2 ≤ (jsTrim s).length → (jsTrim s).head? = some q →
      (jsTrim s).getLast? = some q →
      unquote s = .ok (((jsTrim s).drop 1).dropLast)) ∧
    (∀ (s : List Char), leftQuoted (jsTrim s) ≠ rightQuoted (jsTrim s) →
      unquote s = .error .mk) ∧
    (∀ (s : List Char), leftQuoted (jsTrim s) = false →
      rightQuoted (jsTrim s) = false → unquote s = .ok (jsTrim s)) := by
  refine ⟨?_, ?_, ?_⟩
  · intro s q hq hlen hhead hlast
    rcases ht : jsTrim s with _ | ⟨start, rest⟩
    · rw [ht] at hlen; simp at hlen
    · rw [ht] at hhead hlast hlen
      have hst : start = q := by simpa using hhead
      subst hst
      simp only [unquote, ht]
      rw [if_pos hlen, hlast]
      simp [hq]
  · intro s hne
    rcases ht : jsTrim s with _ | ⟨start, rest⟩
    · rw [ht] at hne
      simp [leftQuoted, rightQuoted] at hne
    · rw [ht] at hne
      cases rest with
      | nil =>
        have hqs : isQuoteChar start = true := by
          simpa [leftQuoted, rightQuoted] using hne
        simp only [unquote, ht]
        rw [if_neg (show ¬(2 ≤ ([start] : List Char).length) by simp)]
        simp [hqs]
      | cons r1 rs =>
        have hlen2 : 2 ≤ (start :: r1 :: rs).length := by
          simp [List.length]
        obtain ⟨d, hd⟩ : ∃ d, (start :: r1 :: rs).getLast? = some d :=
          Option.isSome_iff_exists.mp (List.getLast?_isSome.mpr (by simp))
        have hne2 : isQuoteChar start ≠ isQuoteChar d := by
          simpa [leftQuoted, rightQuoted, hd, hlen2] using hne
        have hlast_ne : d ≠ start := by
          intro hda
          subst hda
          exact hne2 rfl
        have hq_or : (isQuoteChar start || isQuoteChar d) = true := by
          cases h1 : isQuoteChar start <;> cases h2 : isQuoteChar d <;> simp_all
        simp only [unquote, ht]
        rw [if_pos hlen2, hd]
        simp [hq_or, hlast_ne]
  · intro s hl hr
    rcases ht : jsTrim s with _ | ⟨start, rest⟩
    · simp only [unquote, ht]
    · rw [ht] at hl hr
      have hqs : isQuoteChar start = false := by simpa [leftQuoted] using hl
      cases rest with
      | nil =>
        simp only [unquote, ht]
        rw [if_neg (show ¬(2 ≤ ([start] : List Char).length) by simp)]
        simp [hqs]
      | cons r1 rs =>
        have hlen2 : 2 ≤ (start :: r1 :: rs).length := by
          simp [List.length]
        obtain ⟨d, hd⟩ : ∃ d, (start :: r1 :: rs).getLast? = some d :=
          Option.isSome_iff_exists.mp (List.getLast?_isSome.mpr (by simp))
        have hqd : isQuoteChar d = false := by
          simpa [rightQuoted, hd, hlen2] using hr
        simp only [unquote, ht]
        rw [if_pos hlen2, hd]
        simp [hqs, hqd]

/-! ### The streaming loop of the encoder (claims C1, C4, C7) -/

theorem fillBuf_none (fm : FileModel) (h : fm.failAt = none) (cap : Nat) :
    ∀ (fuel pos : Nat) (buf : List Nat),
    buf.length ≤ cap → fm.content.length - pos ≤ fuel →
    fillBuf fm cap fuel pos buf =
      .ok (pos + min (cap - buf.length) (fm.content.length - pos),
           buf ++ (fm.content.drop pos).take (cap - buf.length)) := by
  intro fuel
  induction fuel with
  | zero =>
    intro pos buf hbl hfuel
    have hple : fm.content.length ≤ pos := by omega
    have hdrop : fm.content.drop pos = [] := List.drop_eq_nil_of_le hple
    show Except.ok (pos, buf) = _
    rw [hdrop]
    simp [Nat.sub_eq_zero_of_le hple]
  | succ fuel ih =>
    intro pos buf hbl hfuel
    by_cases hlt : buf.length < cap
    · have hread : readSync fm pos (cap - buf.length) =
          .ok ((fm.content.drop pos).take (cap - buf.length)) := by
        simp [readSync, h]
      simp only [fillBuf, if_pos hlt, hread]
      have hclen : ((fm.content.drop pos).take (cap - buf.length)).length =
          min (cap - buf.length) (fm.content.length - pos) := by simp
      by_cases hz : ((fm.content.drop pos).take (cap - buf.length)).length = 0
      · rw [if_pos hz]
        have hz2 : (fm.content.drop pos).take (cap - buf.length) = [] :=
          List.length_eq_zero.mp hz
        rw [hclen] at hz
        rw [hz, hz2]
        simp
      · rw [if_neg hz]
        rw [hclen] at hz
        rcases Nat.lt_or_ge (fm.content.length - pos) (cap - buf.length) with hsmall | hbig
        · -- the read reaches end of file: the chunk is the whole remainder
          have hdlen : (fm.content.drop pos).length = fm.content.length - pos := by simp
          have hchunk : (fm.content.drop pos).take (cap - buf.length) =
              fm.content.drop pos := List.take_of_length_le (by omega)
          rw [hchunk, hdlen]
          rw [ih (pos + (fm.content.length - pos)) (buf ++ fm.content.drop pos)
            (by simp [hdlen]; omega) (by omega)]
          have hple : pos + (fm.content.length - pos) = fm.content.length := by omega
          have hminr : min (cap - buf.length) (fm.content.length - pos) =
              fm.content.length - pos := by omega
          rw [hminr, hple, List.drop_length]
          simp
        · -- the read fills the buffer completely
          have hchunklen : ((fm.content.drop pos).take (cap - buf.length)).length =
              cap - buf.length := by rw [hclen]; omega
          rw [hchunklen]
          rw [ih (pos + (cap - buf.length))
            (buf ++ (fm.content.drop pos).take (cap - buf.length))
            (by simp [hchunklen]; omega) (by omega)]
          have hble : (buf ++ (fm.content.drop pos).take (cap - buf.length)).length =
              cap := by simp [hchunklen]; omega
          have hminl : min (cap - buf.length) (fm.content.length - pos) =
              cap - buf.length := by omega
          rw [hble, Nat.sub_self, hminl]
          simp
    · simp only [fillBuf, if_neg hlt]
      have h0 : cap - buf.length = 0 := by omega
      rw [h0]
      simp

theorem streamLoop_none (fm : FileModel) (h : fm.failAt = none) (cap : Nat)
    (hcap : 0 < cap) :
    ∀ (fuel pos : Nat), fm.content.length - pos ≤ fuel →
    (streamLoop fm cap fuel pos).2 = none ∧
    (streamLoop fm cap fuel pos).1.flatten = fm.content.drop pos := by
  intro fuel
  induction fuel with
  | zero =>
    intro pos hfuel
    have hple : fm.content.length ≤ pos := by omega
    have hfb := fillBuf_none fm h cap (fm.content.length + 1) pos []
      (by simp) (by omega)
    have hdrop : fm.content.drop pos = [] := List.drop_eq_nil_of_le hple
    rw [hdrop] at hfb
    simp only [streamLoop, hfb]
    simp [hdrop]
  | succ fuel ih =>
    intro pos hfuel
    have hfb := fillBuf_none fm h cap (fm.content.length + 1) pos []
      (by simp) (by omega)
    simp only [List.length_nil, Nat.sub_zero, List.nil_append] at hfb
    simp only [streamLoop, hfb]
    by_cases hfull : ((fm.content.drop pos).take cap).length = cap
    · rw [if_pos hfull]
      have hlen : ((fm.content.drop pos).take cap).length =
          min cap (fm.content.length - pos) := by simp
      rw [hlen] at hfull
      have hge : cap ≤ fm.content.length - pos := by omega
      have hmin : min cap (fm.content.length - pos) = cap := by omega
      rw [hmin]
      obtain ⟨ih1, ih2⟩ := ih (pos + cap) (by omega)
      refine ⟨by simpa using ih1, ?_⟩
      show (fm.content.drop pos).take cap ++
        (streamLoop fm cap fuel (pos + cap)).1.flatten = fm.content.drop pos
      rw [ih2]
      have hdd : fm.content.drop (pos + cap) = (fm.content.drop pos).drop cap := by
        rw [List.drop_drop, Nat.add_comm]
      rw [hdd, List.take_append_drop]
    · rw [if_neg hfull]
      have hlen : ((fm.content.drop pos).take cap).length =
          min cap (fm.content.length - pos) := by simp
      rw [hlen] at hfull
      have hlt : fm.content.length - pos < cap := by omega
      have htake : (fm.content.drop pos).take cap = fm.content.drop pos :=
        List.take_of_length_le (by simp; omega)
      simp [htake]

theorem sinkBytes_append (l1 l2 : List SinkEv) :
    sinkBytes (l1 ++ l2) = sinkBytes l1 ++ sinkBytes l2 := by
  simp [sinkBytes]

theorem sinkBytes_writes (chunks : List (List Nat)) :
    sinkBytes (chunks.map SinkEv.write) = chunks.flatten := by
  induction chunks with
  | nil => rfl
  | cons c cs ih =>
    show c ++ sinkBytes (cs.map SinkEv.write) = c ++ cs.flatten
    rw [ih]

theorem writeField_scalar_bytes (bound key v : List Char) :
    (writeField bound key (.scalar v)).2 = none ∧
    sinkBytes (writeField bound key (.scalar v)).1 =
      specPartBytes bound key (.scalar v) := by
  constructor
  · rfl
  · simp [writeField, sinkBytes, specPartBytes]

theorem writeField_file_bytes (bound key filePath : List Char) (fm : FileModel)
    (h : fm.failAt = none) :
    (writeField bound key (.file filePath fm)).2 = none ∧
    sinkBytes (writeField bound key (.file filePath fm)).1 =
      specPartBytes bound key (.file filePath fm) := by
  have hcap : 0 < bufCap := by decide
  obtain ⟨h1, h2⟩ := streamLoop_none fm h bufCap hcap (fm.content.length + 1) 0
    (by omega)
  rcases hsl : streamLoop fm bufCap (fm.content.length + 1) 0 with ⟨chunks, err⟩
  rw [hsl] at h1 h2
  simp only at h1 h2
  subst h1
  rw [List.drop_zero] at h2
  simp only [writeField, hsl]
  refine ⟨by trivial, ?_⟩
  rw [sinkBytes_append, sinkBytes_append, sinkBytes_writes, h2]
  simp [sinkBytes, specPartBytes, List.append_assoc]

/-- C1: when every file field's reads succeed, `writeFormData` delivers to
the sink exactly the spec's framing — in particular, for a file field whose
file holds exactly N bytes, exactly those N bytes form that field's body
(each completely filled buffer of `bufCap = 65536` bytes is written whole
with the fill counter reset, and at end of file only the valid prefix of the
partial buffer is written), with no extra or missing bytes for any N,
including N = 0, bufCap - 1, bufCap and bufCap + 1. -/
theorem writeFormData_streams_exact_bytes (bound : List Char)
    (data : List (List Char × FieldVal)) (h : data.all fieldOk = true) :
    (writeFormData bound data).2 = none ∧
    sinkBytes (writeFormData bound data).1 = specFormData bound data := by
  induction data with
  | nil =>
    constructor
    · rfl
    · simp [writeFormData, sinkBytes, specFormData]
  | cons kv rest ih =>
    rcases kv with ⟨key, val⟩
    have h3 : (fieldOk (key, val) && rest.all fieldOk) = true := h
    have hfo : fieldOk (key, val) = true := by
      cases hx : fieldOk (key, val)
      · rw [hx, Bool.false_and] at h3
        cases h3
      · rfl
    have hrest : rest.all fieldOk = true := by
      cases hx : rest.all fieldOk
      · rw [hx, Bool.and_false] at h3
        cases h3
      · rfl
    obtain ⟨ihe, ihb⟩ := ih hrest
    have hfield : (writeField bound key val).2 = none ∧
        sinkBytes (writeField bound key val).1 = specPartBytes bound key val := by
      cases val with
      | scalar v => exact writeField_scalar_bytes bound key v
      | file fp fm =>
        have hnone : fm.failAt = none := by
          simpa [fieldOk, Option.isNone_iff_eq_none] using hfo
        exact writeField_file_bytes bound key fp fm hnone
    rcases hwf : writeField bound key val with ⟨evs, err⟩
    rw [hwf] at hfield
    obtain ⟨he, hb⟩ := hfield
    have he2 : err = none := he
    subst he2
    have hb2 : sinkBytes evs = specPartBytes bound key val := hb
    simp only [writeFormData, hwf]
    constructor
    · simpa using ihe
    · rw [sinkBytes_append]
      rw [hb2, ihb]
      simp [specFormData, List.append_assoc]

/-- Witness for C1: a two-field mapping — one scalar, one three-byte file —
streams to exactly the spec's bytes. -/
theorem writeFormData_streams_exact_bytes_witness :
    ([(("a").data, FieldVal.scalar (("1").data)),
      (("f").data, FieldVal.file (("x.bin").data) ⟨[7, 8, 9], none⟩)].all fieldOk
        = true) ∧
    ((writeFormData (("b").data)
      [(("a").data, FieldVal.scalar (("1").data)),
       (("f").data, FieldVal.file (("x.bin").data) ⟨[7, 8, 9], none⟩)]).2 = none ∧
     sinkBytes (writeFormData (("b").data)
      [(("a").data, FieldVal.scalar (("1").data)),
       (("f").data, FieldVal.file (("x.bin").data) ⟨[7, 8, 9], none⟩)]).1 =
      specFormData (("b").data)
      [(("a").data, FieldVal.scalar (("1").data)),
       (("f").data, FieldVal.file (("x.bin").data) ⟨[7, 8, 9], none⟩)]) :=
  ⟨by decide, writeFormData_streams_exact_bytes (("b").data)
    [(("a").data, FieldVal.scalar (("1").data)),
     (("f").data, FieldVal.file (("x.bin").data) ⟨[7, 8, 9], none⟩)] (by decide)⟩

theorem writeField_no_wend (bound key : List Char) (val : FieldVal) :
    ∀ e ∈ (writeField bound key val).1, isWendEv e = false := by
  cases val with
  | scalar v =>
    intro e he
    simp only [writeField, List.mem_cons, List.not_mem_nil, or_false] at he
    rcases he with rfl | rfl | rfl <;> rfl
  | file fp fm =>
    intro e he
    rcases hsl : streamLoop fm bufCap (fm.content.length + 1) 0 with ⟨chunks, err⟩
    simp only [writeField, hsl] at he
    cases err with
    | some e2 =>
      simp only [List.mem_append, List.mem_cons, List.not_mem_nil, or_false,
        List.mem_map] at he
      rcases he with (rfl | rfl | rfl) | ⟨bs, _, rfl⟩ <;> rfl
    | none =>
      simp only [List.mem_append, List.mem_cons, List.not_mem_nil, or_false,
        List.mem_map] at he
      rcases he with ((rfl | rfl | rfl) | ⟨bs, _, rfl⟩) | (rfl | rfl) <;> rfl

/-- C7: the byte stream `writeFormData` produces ends with the terminator
`--<boundary>--\r\n` exactly once, for every field mapping on which the
encode completes (no read failure), including the empty mapping, whose
stream is the terminator alone; the terminator is carried by the one `wend`
event, which finalizes the sink (`httpReq.end`). -/
theorem writeFormData_terminator (bound : List Char) :
    ((writeFormData bound []).1 = [SinkEv.wend (terminatorBytes bound)]) ∧
    ∀ (data : List (List Char × FieldVal)),
      (writeFormData bound data).2 = none →
      (writeFormData bound data).1.getLast? =
        some (SinkEv.wend (terminatorBytes bound)) ∧
      ((writeFormData bound data).1.filter (fun e => isWendEv e)).length = 1 := by
  refine ⟨rfl, ?_⟩
  intro data
  induction data with
  | nil =>
    intro _
    constructor
    · rfl
    · rfl
  | cons kv rest ih =>
    rcases kv with ⟨key, val⟩
    intro herr
    rcases hwf : writeField bound key val with ⟨evs, err⟩
    cases err with
    | some e =>
      rw [show (writeFormData bound ((key, val) :: rest)).2 = some e by
        simp only [writeFormData, hwf]] at herr
      cases herr
    | none =>
      have hstep : writeFormData bound ((key, val) :: rest) =
          (evs ++ (writeFormData bound rest).1, (writeFormData bound rest).2) := by
        simp only [writeFormData, hwf]
      rw [hstep] at herr ⊢
      simp only at herr ⊢
      obtain ⟨ihl, ihc⟩ := ih herr
      constructor
      · rw [List.getLast?_append, ihl]
        rfl
      · rw [List.filter_append]
        have hnil : evs.filter (fun e => isWendEv e) = [] :=
          List.filter_eq_nil_iff.mpr (fun a ha => by
            have ha2 : a ∈ (writeField bound key val).1 := by rw [hwf]; exact ha
            simp [writeField_no_wend bound key val a ha2])
        rw [hnil, List.nil_append, ihc]

/-- Witness for C7 at a one-scalar-field mapping (no read can fail). -/
theorem writeFormData_terminator_witness :
    (writeFormData (("b").data) [(("a").data, FieldVal.scalar (("1").data))]).1.getLast?
        = some (SinkEv.wend (terminatorBytes (("b").data))) ∧
    ((writeFormData (("b").data)
      [(("a").data, FieldVal.scalar (("1").data))]).1.filter
        (fun e => isWendEv e)).length = 1 :=
  (writeFormData_terminator (("b").data)).2
    [(("a").data, FieldVal.scalar (("1").data))] (by decide)

/-- C4: at a file field whose very first read raises, the trace shows the
descriptor opened, the exception propagated, and `fclose` never sent: the
source has no try/finally around the read loop, so `fs.closeSync(fd)` on
line 251 is skipped when `fs.readSync` throws, and the descriptor leaks —
against the spec's guarantee of unconditional release. -/
theorem writeFormData_read_failure_skips_close :
    ((writeFormData (("b").data)
      [(("f").data, FieldVal.file (("x.bin").data) ⟨[1, 2, 3], some 0⟩)]).2
        = some .mk) ∧
    SinkEv.fopen ∈ (writeFormData (("b").data)
      [(("f").data, FieldVal.file (("x.bin").data) ⟨[1, 2, 3], some 0⟩)]).1 ∧
    SinkEv.fclose ∉ (writeFormData (("b").data)
      [(("f").data, FieldVal.file (("x.bin").data) ⟨[1, 2, 3], some 0⟩)]).1 := by
  exact ⟨by decide, by decide, by decide⟩

end UvaNode
